import Mathlib

/-!
Verification of the tic-tac-toe game core in `src/src/Game.js`.

The JS component keeps its state in React `useState` hooks; we model that
state as an explicit record and each handler as a state-transforming
function.  JS numbers that can be `-Infinity` or `+Infinity` (the minimax
accumulators) are modelled by the three-constructor type `JsNum`; integer
scores are `Int`.  The JS functions throw no exceptions, so the handlers
are embedded in `Except GameError _` with results that are always `.ok`;
this makes the (absence of) error signalling statable.

The recursion of `minimax` terminates because each hypothetical move fills
one empty cell; we embed it with a structural `fuel` argument bounding the
recursion depth.  Any `fuel` larger than the number of empty cells (at most
9) makes the `fuel = 0` fallback unreachable, so every wrapper below fixes
`fuel = 10`; theorem `XO.minimaxFuel_irrel` shows the choice is irrelevant.
-/

namespace XO

/-- A player's mark: the strings `"X"` and `"O"` in `Game.js`. -/
inductive Mark : Type
  | X
  | O
deriving DecidableEq, Repr, Fintype

/-- A board cell: `null`, `"X"` or `"O"` (`Array(9).fill(null)` starts all cells at `null`). -/
abbrev Cell := Option Mark

/-- The 9-cell board (the `board` array of length 9), indexed 0–8 in row-major order. -/
abbrev Board := Fin 9 → Cell

/-- The array write `b[i] = v`. -/
def setCell (b : Board) (i : Fin 9) (v : Cell) : Board :=
  fun j => if j = i then v else b j

/-- Non-`null` results of `checkWinner`: a winning mark, or the string `"Tie"`. -/
inductive WinResult : Type
  | mark (m : Mark)
  | tie
deriving DecidableEq, Repr

/-- The `winningCombinations` list of `checkWinner` (lines 29–38): three rows,
three columns, two diagonals. -/
def winningCombinations : List (Fin 9 × Fin 9 × Fin 9) :=
  [(0, 1, 2), (3, 4, 5), (6, 7, 8),
   (0, 3, 6), (1, 4, 7), (2, 5, 8),
   (0, 4, 8), (2, 4, 6)]

/-- The test `currentBoard.every(Boolean)` (line 51): every cell is non-`null`. -/
def isFull (b : Board) : Bool :=
  (List.finRange 9).all fun i => (b i).isSome

/-- `checkWinner` (lines 28–52): return the mark of the first winning
combination whose three cells hold the same non-`null` mark; otherwise
`"Tie"` if the board is full, else `null`. -/
def checkWinner (b : Board) : Option WinResult :=
  match winningCombinations.find?
      (fun t => decide (b t.1 ≠ none ∧ b t.1 = b t.2.1 ∧ b t.1 = b t.2.2)) with
  | some t => (b t.1).map WinResult.mark
  | none => if isFull b then some WinResult.tie else none

/-- Number of `null` cells of the board. -/
def emptyCount (b : Board) : Nat :=
  (Finset.univ.filter fun i => b i = none).card

/-- Number of `"X"` cells. -/
def xcount (b : Board) : Nat :=
  (Finset.univ.filter fun i => b i = some Mark.X).card

/-- Number of `"O"` cells. -/
def ocount (b : Board) : Nat :=
  (Finset.univ.filter fun i => b i = some Mark.O).card

/-- The JS numbers used by the search: `-Infinity`, `+Infinity`, or an integer. -/
inductive JsNum : Type
  | negInf
  | posInf
  | int (v : Int)
deriving DecidableEq, Repr

/-- The JS comparison `a < b` on the numbers the search manipulates. -/
def jlt : JsNum → JsNum → Bool
  | JsNum.negInf, JsNum.negInf => false
  | JsNum.negInf, _ => true
  | _, JsNum.negInf => false
  | JsNum.posInf, _ => false
  | JsNum.int _, JsNum.posInf => true
  | JsNum.int a, JsNum.int b => decide (a < b)

/-- `Math.max(score, best)` as used on line 98. -/
def jmax (score best : JsNum) : JsNum :=
  if jlt best score then score else best

/-- `Math.min(score, best)` as used on line 99. -/
def jmin (score best : JsNum) : JsNum :=
  if jlt score best then score else best

/-- Line 90 of `minimax`: `const player = isMaximizing ? "O" : "X"`.  The
hypothetically placed mark is a function of the `isMaximizing` flag alone. -/
def mmPlayer (isMaximizing : Bool) : Mark :=
  if isMaximizing then Mark.O else Mark.X

/-- `minimax` (lines 83–103).  Terminal boards score `"X" ↦ -1`, `"O" ↦ 1`,
`"Tie" ↦ 0`; otherwise the `for` loop over indices `0..8` (lines 92–101) is
a fold starting from `∓Infinity`: on each `null` cell place `player`,
recurse with the flag flipped, and combine with `Math.max` / `Math.min`.
`fuel` only bounds the recursion depth (see the file docstring); the
in-place mutation of the JS array is modelled by `minimaxInPlace`, which
computes the same score and restores the array. -/
def minimaxFuel : Nat → Board → Bool → JsNum
  | 0, _, _ => JsNum.int 0
  | fuel + 1, b, isMaximizing =>
      match checkWinner b with
      | some (WinResult.mark Mark.X) => JsNum.int (-1)
      | some (WinResult.mark Mark.O) => JsNum.int 1
      | some WinResult.tie => JsNum.int 0
      | none =>
          (List.finRange 9).foldl
            (fun best i =>
              if b i = none then
                let score :=
                  minimaxFuel fuel (setCell b i (some (mmPlayer isMaximizing))) (!isMaximizing)
                if isMaximizing then jmax score best else jmin score best
              else best)
            (if isMaximizing then JsNum.negInf else JsNum.posInf)

/-- The loop body of `minimax` as a named step function (definitionally the
fold function inside `minimaxFuel`). -/
def mmStep (fuel : Nat) (b : Board) (isMaximizing : Bool) (best : JsNum) (i : Fin 9) : JsNum :=
  if b i = none then
    let score := minimaxFuel fuel (setCell b i (some (mmPlayer isMaximizing))) (!isMaximizing)
    if isMaximizing then jmax score best else jmin score best
  else best

/-- `minimax` at fuel 10; since a board has at most 9 empty cells the
fallback branch of `minimaxFuel` is unreachable here. -/
def minimax (b : Board) (isMaximizing : Bool) : JsNum :=
  minimaxFuel 10 b isMaximizing

/-- Lines 106–108 of `computerMove`: the indices of the `null` cells, in
ascending order (`board.map((value, index) => value === null ? index : null)
.filter(value => value !== null)`). -/
def emptySquares (b : Board) : List (Fin 9) :=
  (List.finRange 9).filter fun i => decide (b i = none)

/-- The `for (let i of emptySquares)` loop of `computerMove` (lines 110–121):
score each candidate `"O"` move with `minimax(·, false)` and keep the first
strict improvement (`if (score > bestScore)`).  Returns the final
`(bestScore, move)` pair; `move` stays `none` (JS `undefined`) until a score
beats the accumulator. -/
def selectLoop (b : Board) (idxs : List (Fin 9)) (bestScore : JsNum) (move : Option (Fin 9)) :
    JsNum × Option (Fin 9) :=
  match idxs with
  | [] => (bestScore, move)
  | i :: rest =>
      let score := minimax (setCell b i (some Mark.O)) false
      if jlt bestScore score then selectLoop b rest score (some i)
      else selectLoop b rest bestScore move

/-- The move-selection part of `computerMove` (lines 105–121): the index the
engine picks for `"O"`, or `none` when no candidate was scored. -/
def bestMove (b : Board) : Option (Fin 9) :=
  (selectLoop b (emptySquares b) JsNum.negInf none).2

/-- The error kinds named by the spec (section 7).  The JS code never throws,
so every embedded handler below returns `.ok`; the type records what the spec
says the handlers should signal. -/
inductive GameError : Type
  | InvalidMove
  | GameAlreadyOver
  | PreconditionViolated
deriving DecidableEq, Repr

/-- The React component state (`useState` hooks, lines 6–14). -/
structure GameState : Type where
  board : Board
  isPlayerTurn : Bool
  winner : Option WinResult
  playerScore : Nat
  aiScore : Nat
  draws : Nat
  countdown : Nat
  gameStarted : Bool
  roundReady : Bool
deriving DecidableEq, Repr

instance : DecidableEq (Except GameError GameState) := fun x y =>
  match x, y with
  | Except.ok a, Except.ok b =>
      if h : a = b then isTrue (by rw [h]) else isFalse (fun hc => h (Except.ok.inj hc))
  | Except.error a, Except.error b =>
      if h : a = b then isTrue (by rw [h]) else isFalse (fun hc => h (Except.error.inj hc))
  | Except.ok _, Except.error _ => isFalse (fun hc => Except.noConfusion hc)
  | Except.error _, Except.ok _ => isFalse (fun hc => Except.noConfusion hc)

/-- The `useState` initial values (lines 6–14): empty board, player to move,
no winner, zero tallies, countdown 3, game not started, round not ready. -/
def initialState : GameState :=
  { board := fun _ => none
    isPlayerTurn := true
    winner := none
    playerScore := 0
    aiScore := 0
    draws := 0
    countdown := 3
    gameStarted := false
    roundReady := false }

/-- `startNewGame` (lines 19–26): reset board, turn, winner and countdown,
mark the game started and the round not ready; tallies are kept. -/
def startNewGame (s : GameState) : GameState :=
  { s with
    board := fun _ => none
    isPlayerTurn := true
    winner := none
    countdown := 3
    gameStarted := true
    roundReady := false }

/-- `updateWinner` (lines 54–64): bump the tally for the outcome, record the
winner and set `roundReady`. -/
def updateWinner (s : GameState) (w : WinResult) : GameState :=
  { s with
    playerScore := if w = WinResult.mark Mark.X then s.playerScore + 1 else s.playerScore
    aiScore := if w = WinResult.mark Mark.O then s.aiScore + 1 else s.aiScore
    draws := if w = WinResult.tie then s.draws + 1 else s.draws
    winner := some w
    roundReady := true }

/-- `handleClick` (lines 66–81): if the cell is occupied, a winner is
recorded, the countdown is running, the game has not started, the round is
not ready, or it is not the player's turn, return with no state change;
otherwise place `"X"` at `index` and hand the turn to the AI.  The JS
function throws nothing, so the result is always `.ok`. -/
def handleClick (s : GameState) (index : Fin 9) : Except GameError GameState :=
  if (s.board index).isSome || s.winner.isSome || decide (0 < s.countdown)
      || !s.gameStarted || !s.roundReady || !s.isPlayerTurn then
    Except.ok s
  else
    Except.ok { s with board := setCell s.board index (some Mark.X), isPlayerTurn := false }

/-- `computerMove` (lines 105–129): place `"O"` at the selected move when one
exists (`if (move !== undefined)`), and in every case set `isPlayerTurn` to
`true`.  The JS function throws nothing, so the result is always `.ok`. -/
def computerMove (s : GameState) : Except GameError GameState :=
  match bestMove s.board with
  | some move =>
      Except.ok { s with board := setCell s.board move (some Mark.O), isPlayerTurn := true }
  | none => Except.ok { s with isPlayerTurn := true }

/-- One step of the component's own event loop: a board click, the AI move
under the guard of the first `useEffect` (line 132), the winner bookkeeping
of that effect (lines 140–143), a countdown tick (lines 147–150), the
round-ready flip (lines 152–154), or a new round via `startNewGame`. -/
inductive Step : GameState → GameState → Prop
  | click (s : GameState) (i : Fin 9) (s' : GameState) :
      handleClick s i = Except.ok s' → Step s s'
  | ai (s s' : GameState) :
      s.isPlayerTurn = false → s.winner = none → s.countdown = 0 → s.roundReady = true →
      computerMove s = Except.ok s' → Step s s'
  | record (s : GameState) (w : WinResult) :
      checkWinner s.board = some w → s.winner = none → Step s (updateWinner s w)
  | tick (s : GameState) :
      0 < s.countdown → s.gameStarted = true → Step s { s with countdown := s.countdown - 1 }
  | ready (s : GameState) :
      s.countdown = 0 → s.gameStarted = true → s.roundReady = false →
      Step s { s with roundReady := true }
  | newRound (s : GameState) : Step s (startNewGame s)

/-- States reachable from the initial state by the event loop's steps. -/
def Reachable (s : GameState) : Prop :=
  Relation.ReflTransGen Step initialState s

/-- `minimax` (lines 83–103) with its in-place array mutation made explicit:
the JS function writes `newBoard[i] = player`, recurses, then writes
`newBoard[i] = null` (lines 94–96).  Here the array is threaded through the
fold together with `bestScore` and returned, so that the frame property
"the array holds its original contents when the call returns" is statable. -/
def minimaxInPlace : Nat → Board → Bool → JsNum × Board
  | 0, b, _ => (JsNum.int 0, b)
  | fuel + 1, b, isMaximizing =>
      match checkWinner b with
      | some (WinResult.mark Mark.X) => (JsNum.int (-1), b)
      | some (WinResult.mark Mark.O) => (JsNum.int 1, b)
      | some WinResult.tie => (JsNum.int 0, b)
      | none =>
          (List.finRange 9).foldl
            (fun acc i =>
              if acc.2 i = none then
                let r := minimaxInPlace fuel (setCell acc.2 i (some (mmPlayer isMaximizing)))
                    (!isMaximizing)
                (if isMaximizing then jmax r.1 acc.1 else jmin r.1 acc.1, setCell r.2 i none)
              else acc)
            ((if isMaximizing then JsNum.negInf else JsNum.posInf), b)

/-- The loop body of `minimaxInPlace` as a named step function
(definitionally the fold function inside it). -/
def ipStep (fuel : Nat) (isMaximizing : Bool) (acc : JsNum × Board) (i : Fin 9) :
    JsNum × Board :=
  if acc.2 i = none then
    let r := minimaxInPlace fuel (setCell acc.2 i (some (mmPlayer isMaximizing))) (!isMaximizing)
    (if isMaximizing then jmax r.1 acc.1 else jmin r.1 acc.1, setCell r.2 i none)
  else acc

/-- Modelled from the spec (sections 3 and 4.2): the turn derived from the
board itself — "which mark has fewer placed cells moves next", `MarkA` (`"X"`)
moving first on equal counts. -/
def turnOf (b : Board) : Mark :=
  if ocount b < xcount b then Mark.O else Mark.X

/-- Modelled from the spec (section 4.2): the flag-free derived-turn search.
At each node the hypothetically placed mark is `turnOf` of the current board,
not a passed-down flag; the node maximizes exactly when the derived turn is
`"O"` (the engine's mark, scored `+1` as in the code). -/
def minimaxDerivedFuel : Nat → Board → JsNum
  | 0, _ => JsNum.int 0
  | fuel + 1, b =>
      match checkWinner b with
      | some (WinResult.mark Mark.X) => JsNum.int (-1)
      | some (WinResult.mark Mark.O) => JsNum.int 1
      | some WinResult.tie => JsNum.int 0
      | none =>
          (List.finRange 9).foldl
            (fun best i =>
              if b i = none then
                let score := minimaxDerivedFuel fuel (setCell b i (some (turnOf b)))
                if turnOf b = Mark.O then jmax score best else jmin score best
              else best)
            (if turnOf b = Mark.O then JsNum.negInf else JsNum.posInf)

/-- The loop body of `minimaxDerivedFuel` as a named step function
(definitionally the fold function inside it). -/
def dStep (fuel : Nat) (b : Board) (best : JsNum) (i : Fin 9) : JsNum :=
  if b i = none then
    let score := minimaxDerivedFuel fuel (setCell b i (some (turnOf b)))
    if turnOf b = Mark.O then jmax score best else jmin score best
  else best

/-- The derived-turn search at fuel 10 (fallback unreachable, as for `minimax`). -/
def minimaxDerived (b : Board) : JsNum :=
  minimaxDerivedFuel 10 b

/-- The game-theoretic guarantee the spec's optimality sentences quantify
over: starting from board `b` with the engine's mark `"O"` to move when
`omove` (and `"X"` to move otherwise), `"O"` can force the game to end with
a score of at least `t` (`"O"` win `= 1`, tie `= 0`, `"X"` win `= -1`)
against every opponent reply: on `"O"`'s turn some empty cell keeps the
guarantee, on `"X"`'s turn every empty cell does. -/
def securesFuel : Nat → Int → Board → Bool → Bool
  | 0, _, _, _ => false
  | fuel + 1, t, b, omove =>
      match checkWinner b with
      | some (WinResult.mark Mark.X) => decide (t ≤ -1)
      | some (WinResult.mark Mark.O) => decide (t ≤ 1)
      | some WinResult.tie => decide (t ≤ 0)
      | none =>
          if omove then
            (List.finRange 9).any fun i =>
              if b i = none then securesFuel fuel t (setCell b i (some Mark.O)) false else false
          else
            (List.finRange 9).all fun i =>
              if b i = none then securesFuel fuel t (setCell b i (some Mark.X)) true else true

/-- The guarantee predicate at fuel 10 (fallback unreachable, as for `minimax`). -/
def secures (t : Int) (b : Board) (omove : Bool) : Bool :=
  securesFuel 10 t b omove

/-- A mark `m` owns a complete winning line on `b`. -/
def lineWon (b : Board) (m : Mark) : Prop :=
  ∃ t ∈ winningCombinations, b t.1 = some m ∧ b t.2.1 = some m ∧ b t.2.2 = some m

instance (b : Board) (m : Mark) : Decidable (lineWon b m) :=
  List.decidableBEx _ winningCombinations

/-- The integer score `minimax` assigns to a terminal result (lines 85–87). -/
def scoreOf : WinResult → Int
  | WinResult.mark Mark.X => -1
  | WinResult.mark Mark.O => 1
  | WinResult.tie => 0

/-- The integer value of `minimax b isMaximizing`; theorem `XO.minimax_int`
shows `minimax` always returns `JsNum.int (mval b isMaximizing)`, the
`±Infinity` accumulator seeds never escaping the fold. -/
def mval (b : Board) (isMaximizing : Bool) : Int :=
  match minimax b isMaximizing with
  | JsNum.int v => v
  | _ => 0

/-- The score `computerMove` computes for the candidate move `i` (line 116):
`minimax(newBoard, false)` after placing `"O"` at `i`. -/
def moveScore (b : Board) (i : Fin 9) : JsNum :=
  minimax (setCell b i (some Mark.O)) false

/-! ## Concrete boards and states used as scenarios, witnesses and counterexamples -/

/-- The board of spec scenario 3: `[A,B,A,B,A,B,Empty,Empty,Empty]` with
`A = "X"`, `B = "O"`; `"X"` threatens both diagonals (cells 6 and 8). -/
def scenario3Board : Board :=
  ![some Mark.X, some Mark.O, some Mark.X, some Mark.O, some Mark.X,
    some Mark.O, none, none, none]

/-- An in-progress board with `"O"` to move that is already lost for `"O"`:
`"X"` (cells 0, 2, 4) threatens at 1, 6 and 8 at once, so no `"O"` reply
avoids defeat. -/
def lostBoard : Board :=
  ![some Mark.X, none, some Mark.X, some Mark.O, some Mark.X,
    some Mark.O, none, none, none]

/-- A (not legally reachable) board on which both marks own a complete
line: `"X"` the top row, `"O"` the middle row. -/
def doubleWinBoard : Board :=
  ![some Mark.X, some Mark.X, some Mark.X, some Mark.O, some Mark.O,
    some Mark.O, none, none, none]

/-- A board with equal mark counts (`"X"` to move by the derived-turn rule)
on which each side could win immediately: `"O"` completes the top row at 2,
`"X"` the middle row at 5. -/
def mixedTurnBoard : Board :=
  ![some Mark.O, some Mark.O, none, some Mark.X, some Mark.X,
    none, none, none, none]

/-- A full board with no three-in-a-row (spec scenario 4). -/
def drawBoard : Board :=
  ![some Mark.X, some Mark.O, some Mark.X, some Mark.X, some Mark.O,
    some Mark.O, some Mark.O, some Mark.X, some Mark.X]

/-- A board on which `"X"` has already won the top row, with empty cells left. -/
def xWonBoard : Board :=
  ![some Mark.X, some Mark.X, some Mark.X, some Mark.O, some Mark.O,
    none, none, none, none]

/-- The board after `"X"`'s first move at cell 0. -/
def xOpeningBoard : Board :=
  ![some Mark.X, none, none, none, none, none, none, none, none]

/-- A mid-round state (game started, countdown elapsed, round ready, player
to move, no winner recorded) holding `lostBoard`; cell 0 is occupied. -/
def clickState : GameState :=
  { board := lostBoard
    isPlayerTurn := true
    winner := none
    playerScore := 0
    aiScore := 0
    draws := 0
    countdown := 0
    gameStarted := true
    roundReady := true }

/-- A mid-round state holding `xWonBoard` — the board is already won, but the
`winner` field has not been recorded yet (as between a click and the
`useEffect` bookkeeping). -/
def wonState : GameState :=
  { clickState with board := xWonBoard }

/-- `wonState` after the winner bookkeeping has recorded `"X"`. -/
def wonRecordedState : GameState :=
  { wonState with winner := some (WinResult.mark Mark.X) }

/-- A mid-round state holding the full `drawBoard`, AI to move, winner not
yet recorded. -/
def fullState : GameState :=
  { clickState with board := drawBoard, isPlayerTurn := false }

/-! ## Basic lemmas: `setCell`, the cell counts, `emptySquares`, `checkWinner` -/

theorem setCell_self (b : Board) (i : Fin 9) (v : Cell) : setCell b i v i = v := by
  simp [setCell]

theorem setCell_ne (b : Board) (i j : Fin 9) (v : Cell) (h : j ≠ i) : setCell b i v j = b j := by
  simp [setCell, h]

theorem setCell_setCell (b : Board) (i : Fin 9) (v w : Cell) :
    setCell (setCell b i v) i w = setCell b i w := by
  funext j
  by_cases h : j = i <;> simp [setCell, h]

theorem setCell_eq_self (b : Board) (i : Fin 9) (v : Cell) (h : b i = v) :
    setCell b i v = b := by
  funext j
  by_cases hj : j = i <;> simp [setCell, hj, h.symm]

theorem filter_setCell (p : Cell → Prop) [DecidablePred p] (b : Board) (i : Fin 9) (v : Cell) :
    (Finset.univ.filter fun j => p (setCell b i v j))
      = if p v then insert i (Finset.univ.filter fun j => p (b j))
        else (Finset.univ.filter fun j => p (b j)).erase i := by
  ext j
  by_cases hij : j = i
  · subst hij
    by_cases hv : p v <;> simp [setCell, hv]
  · by_cases hv : p v <;> simp [setCell, hij, hv]

theorem emptyCount_setCell (b : Board) (i : Fin 9) (m : Mark) (h : b i = none) :
    emptyCount (setCell b i (some m)) + 1 = emptyCount b := by
  have hmem : i ∈ Finset.univ.filter (fun j => b j = none) := by simp [h]
  unfold emptyCount
  rw [filter_setCell (fun c => c = none) b i (some m)]
  simp only [if_neg (by simp : ¬ (some m : Cell) = none)]
  rw [Finset.card_erase_of_mem hmem]
  have hpos : 0 < (Finset.univ.filter fun j => b j = none).card :=
    Finset.card_pos.mpr ⟨i, hmem⟩
  omega

theorem xcount_setCell_X (b : Board) (i : Fin 9) (h : b i = none) :
    xcount (setCell b i (some Mark.X)) = xcount b + 1 := by
  have hnot : i ∉ Finset.univ.filter (fun j => b j = some Mark.X) := by simp [h]
  unfold xcount
  rw [filter_setCell (fun c => c = some Mark.X) b i (some Mark.X)]
  simp only [if_pos rfl]
  exact Finset.card_insert_of_not_mem hnot

theorem xcount_setCell_O (b : Board) (i : Fin 9) (h : b i = none) :
    xcount (setCell b i (some Mark.O)) = xcount b := by
  have hnot : i ∉ Finset.univ.filter (fun j => b j = some Mark.X) := by simp [h]
  unfold xcount
  rw [filter_setCell (fun c => c = some Mark.X) b i (some Mark.O)]
  simp only [if_neg (by simp : ¬ (some Mark.O : Cell) = some Mark.X)]
  exact congrArg Finset.card (Finset.erase_eq_of_not_mem hnot)

theorem ocount_setCell_O (b : Board) (i : Fin 9) (h : b i = none) :
    ocount (setCell b i (some Mark.O)) = ocount b + 1 := by
  have hnot : i ∉ Finset.univ.filter (fun j => b j = some Mark.O) := by simp [h]
  unfold ocount
  rw [filter_setCell (fun c => c = some Mark.O) b i (some Mark.O)]
  simp only [if_pos rfl]
  exact Finset.card_insert_of_not_mem hnot

theorem ocount_setCell_X (b : Board) (i : Fin 9) (h : b i = none) :
    ocount (setCell b i (some Mark.X)) = ocount b := by
  have hnot : i ∉ Finset.univ.filter (fun j => b j = some Mark.O) := by simp [h]
  unfold ocount
  rw [filter_setCell (fun c => c = some Mark.O) b i (some Mark.X)]
  simp only [if_neg (by simp : ¬ (some Mark.X : Cell) = some Mark.O)]
  exact congrArg Finset.card (Finset.erase_eq_of_not_mem hnot)

theorem emptyCount_le_nine (b : Board) : emptyCount b ≤ 9 := by
  have := Finset.card_filter_le Finset.univ (fun i => b i = none)
  simpa [emptyCount] using this

theorem mem_emptySquares (b : Board) (i : Fin 9) : i ∈ emptySquares b ↔ b i = none := by
  simp [emptySquares]

theorem emptySquares_pairwise (b : Board) : (emptySquares b).Pairwise (· < ·) :=
  (List.pairwise_lt_finRange 9).filter _

theorem isFull_iff (b : Board) : isFull b = true ↔ ∀ i, (b i).isSome := by
  simp [isFull]

theorem checkWinner_none_not_full (b : Board) (h : checkWinner b = none) :
    ∃ i, b i = none := by
  unfold checkWinner at h
  rcases hf : winningCombinations.find?
      (fun t => decide (b t.1 ≠ none ∧ b t.1 = b t.2.1 ∧ b t.1 = b t.2.2)) with _ | t
  · rw [hf] at h
    have hfull : isFull b = false := by
      by_contra hc
      have : isFull b = true := by
        cases hfb : isFull b
        · exact absurd hfb hc
        · rfl
      rw [this] at h
      simp at h
    rcases (by simpa [isFull] using hfull : ∃ i : Fin 9, ¬ (b i).isSome) with ⟨i, hi⟩
    exact ⟨i, by cases hbi : b i <;> simp_all⟩
  · rw [hf] at h
    have hp := List.find?_some hf
    rcases of_decide_eq_true hp with ⟨hne, -, -⟩
    cases hbt : b t.1
    · exact absurd hbt hne
    · simp [hbt] at h

theorem emptySquares_ne_nil (b : Board) (h : checkWinner b = none) : emptySquares b ≠ [] := by
  rcases checkWinner_none_not_full b h with ⟨i, hi⟩
  intro hnil
  have : i ∈ emptySquares b := (mem_emptySquares b i).mpr hi
  rw [hnil] at this
  exact List.not_mem_nil i this

/-! ## Order lemmas for `JsNum` -/

theorem jlt_irrefl (a : JsNum) : jlt a a = false := by
  cases a <;> simp [jlt]

theorem jlt_asymm {a b : JsNum} (h : jlt a b = true) : jlt b a = false := by
  cases a <;> cases b <;> simp_all [jlt] <;> omega

theorem jlt_trans {a b c : JsNum} (h₁ : jlt a b = true) (h₂ : jlt b c = true) :
    jlt a c = true := by
  cases a <;> cases b <;> cases c <;> simp_all [jlt] <;> omega

theorem jnlt_trans {a b c : JsNum} (h₁ : jlt b a = false) (h₂ : jlt c b = false) :
    jlt c a = false := by
  cases a <;> cases b <;> cases c <;> simp_all [jlt] <;> omega

theorem jlt_of_nlt_of_lt {x y z : JsNum} (h₁ : jlt x y = false) (h₂ : jlt x z = true) :
    jlt y z = true := by
  cases x <;> cases y <;> cases z <;> simp_all [jlt] <;> omega

theorem jnlt_of_lt_of_nlt {x y z : JsNum} (h₁ : jlt x y = true) (h₂ : jlt z y = false) :
    jlt z x = false := by
  cases x <;> cases y <;> cases z <;> simp_all [jlt] <;> omega

theorem jnlt_of_nlt_of_lt {x y z : JsNum} (h₁ : jlt x y = false) (h₂ : jlt x z = true) :
    jlt z y = false := by
  cases x <;> cases y <;> cases z <;> simp_all [jlt] <;> omega

theorem jlt_negInf_int (v : Int) : jlt JsNum.negInf (JsNum.int v) = true := rfl

theorem jlt_int_iff (x y : Int) : jlt (JsNum.int x) (JsNum.int y) = true ↔ x < y := by
  simp [jlt]

theorem jnlt_int_iff (x y : Int) : jlt (JsNum.int x) (JsNum.int y) = false ↔ y ≤ x := by
  simp [jlt]

/-! ## Unfolding and characterisation of `minimax` -/

theorem minimaxFuel_terminal (fuel : Nat) (b : Board) (r : WinResult) (m : Bool)
    (h : checkWinner b = some r) : minimaxFuel (fuel + 1) b m = JsNum.int (scoreOf r) := by
  rw [minimaxFuel, h]
  cases r with
  | mark mk => cases mk <;> rfl
  | tie => rfl

theorem minimaxFuel_of_none (fuel : Nat) (b : Board) (m : Bool) (h : checkWinner b = none) :
    minimaxFuel (fuel + 1) b m
      = (List.finRange 9).foldl (mmStep fuel b m)
          (if m then JsNum.negInf else JsNum.posInf) := by
  rw [minimaxFuel, h]
  rfl

theorem minimax_terminal (b : Board) (r : WinResult) (m : Bool) (h : checkWinner b = some r) :
    minimax b m = JsNum.int (scoreOf r) :=
  minimaxFuel_terminal 9 b r m h

theorem minimax_of_none (b : Board) (m : Bool) (h : checkWinner b = none) :
    minimax b m
      = (List.finRange 9).foldl (mmStep 9 b m)
          (if m then JsNum.negInf else JsNum.posInf) :=
  minimaxFuel_of_none 9 b m h

theorem mmStep_of_none (fuel : Nat) (b : Board) (m : Bool) (best : JsNum) (i : Fin 9)
    (h : b i = none) :
    mmStep fuel b m best i
      = (if m then jmax (minimaxFuel fuel (setCell b i (some (mmPlayer m))) (!m)) best
         else jmin (minimaxFuel fuel (setCell b i (some (mmPlayer m))) (!m)) best) := by
  simp [mmStep, h]

theorem mmStep_of_occupied (fuel : Nat) (b : Board) (m : Bool) (best : JsNum) (i : Fin 9)
    (h : b i ≠ none) : mmStep fuel b m best i = best := by
  simp [mmStep, h]

theorem foldl_mmStep_max (fuel : Nat) (b : Board) :
    ∀ (idxs : List (Fin 9)) (best : JsNum),
      jlt (idxs.foldl (mmStep fuel b true) best) best = false
      ∧ (∀ i ∈ idxs, b i = none →
          jlt (idxs.foldl (mmStep fuel b true) best)
            (minimaxFuel fuel (setCell b i (some Mark.O)) false) = false)
      ∧ (idxs.foldl (mmStep fuel b true) best = best
          ∨ ∃ i ∈ idxs, b i = none
              ∧ idxs.foldl (mmStep fuel b true) best
                  = minimaxFuel fuel (setCell b i (some Mark.O)) false) := by
  intro idxs
  induction idxs with
  | nil =>
      intro best
      exact ⟨jlt_irrefl best, by simp, Or.inl rfl⟩
  | cons a rest ih =>
      intro best
      rw [List.foldl_cons]
      by_cases ha : b a = none
      · have hstep : mmStep fuel b true best a
            = jmax (minimaxFuel fuel (setCell b a (some Mark.O)) false) best := by
          simp [mmStep, ha, mmPlayer]
        set s := minimaxFuel fuel (setCell b a (some Mark.O)) false with hs
        rw [hstep]
        cases hlt : jlt best s
        · have hbest' : jmax s best = best := by simp [jmax, hlt]
          rw [hbest']
          obtain ⟨ih1, ih2, ih3⟩ := ih best
          refine ⟨ih1, ?_, ?_⟩
          · intro i hi hbi
            rcases List.mem_cons.mp hi with hi | hi
            · subst hi
              exact jnlt_trans hlt ih1
            · exact ih2 i hi hbi
          · rcases ih3 with h3 | ⟨i, hi, hbi, hval⟩
            · exact Or.inl h3
            · exact Or.inr ⟨i, List.mem_cons_of_mem a hi, hbi, hval⟩
        · have hbest' : jmax s best = s := by simp [jmax, hlt]
          rw [hbest']
          obtain ⟨ih1, ih2, ih3⟩ := ih s
          refine ⟨jnlt_of_lt_of_nlt hlt ih1, ?_, ?_⟩
          · intro i hi hbi
            rcases List.mem_cons.mp hi with hi | hi
            · subst hi
              exact ih1
            · exact ih2 i hi hbi
          · rcases ih3 with h3 | ⟨i, hi, hbi, hval⟩
            · exact Or.inr ⟨a, List.mem_cons_self a rest, ha, h3⟩
            · exact Or.inr ⟨i, List.mem_cons_of_mem a hi, hbi, hval⟩
      · rw [mmStep_of_occupied fuel b true best a ha]
        obtain ⟨ih1, ih2, ih3⟩ := ih best
        refine ⟨ih1, ?_, ?_⟩
        · intro i hi hbi
          rcases List.mem_cons.mp hi with hi | hi
          · subst hi
            exact absurd hbi ha
          · exact ih2 i hi hbi
        · rcases ih3 with h3 | ⟨i, hi, hbi, hval⟩
          · exact Or.inl h3
          · exact Or.inr ⟨i, List.mem_cons_of_mem a hi, hbi, hval⟩

theorem foldl_mmStep_min (fuel : Nat) (b : Board) :
    ∀ (idxs : List (Fin 9)) (best : JsNum),
      jlt best (idxs.foldl (mmStep fuel b false) best) = false
      ∧ (∀ i ∈ idxs, b i = none →
          jlt (minimaxFuel fuel (setCell b i (some Mark.X)) true)
            (idxs.foldl (mmStep fuel b false) best) = false)
      ∧ (idxs.foldl (mmStep fuel b false) best = best
          ∨ ∃ i ∈ idxs, b i = none
              ∧ idxs.foldl (mmStep fuel b false) best
                  = minimaxFuel fuel (setCell b i (some Mark.X)) true) := by
  intro idxs
  induction idxs with
  | nil =>
      intro best
      exact ⟨jlt_irrefl best, by simp, Or.inl rfl⟩
  | cons a rest ih =>
      intro best
      rw [List.foldl_cons]
      by_cases ha : b a = none
      · have hstep : mmStep fuel b false best a
            = jmin (minimaxFuel fuel (setCell b a (some Mark.X)) true) best := by
          simp [mmStep, ha, mmPlayer]
        set s := minimaxFuel fuel (setCell b a (some Mark.X)) true with hs
        rw [hstep]
        cases hlt : jlt s best
        · have hbest' : jmin s best = best := by simp [jmin, hlt]
          rw [hbest']
          obtain ⟨ih1, ih2, ih3⟩ := ih best
          refine ⟨ih1, ?_, ?_⟩
          · intro i hi hbi
            rcases List.mem_cons.mp hi with hi | hi
            · subst hi
              exact jnlt_trans ih1 hlt
            · exact ih2 i hi hbi
          · rcases ih3 with h3 | ⟨i, hi, hbi, hval⟩
            · exact Or.inl h3
            · exact Or.inr ⟨i, List.mem_cons_of_mem a hi, hbi, hval⟩
        · have hbest' : jmin s best = s := by simp [jmin, hlt]
          rw [hbest']
          obtain ⟨ih1, ih2, ih3⟩ := ih s
          refine ⟨jnlt_of_nlt_of_lt ih1 hlt, ?_, ?_⟩
          · intro i hi hbi
            rcases List.mem_cons.mp hi with hi | hi
            · subst hi
              exact ih1
            · exact ih2 i hi hbi
          · rcases ih3 with h3 | ⟨i, hi, hbi, hval⟩
            · exact Or.inr ⟨a, List.mem_cons_self a rest, ha, h3⟩
            · exact Or.inr ⟨i, List.mem_cons_of_mem a hi, hbi, hval⟩
      · rw [mmStep_of_occupied fuel b false best a ha]
        obtain ⟨ih1, ih2, ih3⟩ := ih best
        refine ⟨ih1, ?_, ?_⟩
        · intro i hi hbi
          rcases List.mem_cons.mp hi with hi | hi
          · subst hi
            exact absurd hbi ha
          · exact ih2 i hi hbi
        · rcases ih3 with h3 | ⟨i, hi, hbi, hval⟩
          · exact Or.inl h3
          · exact Or.inr ⟨i, List.mem_cons_of_mem a hi, hbi, hval⟩

theorem minimaxFuel_int :
    ∀ (fuel : Nat) (b : Board) (m : Bool), emptyCount b < fuel →
      ∃ v : Int, minimaxFuel fuel b m = JsNum.int v := by
  intro fuel
  induction fuel with
  | zero => intro b m h; exact absurd h (Nat.not_lt_zero _)
  | succ fuel ih =>
      intro b m h
      cases hcw : checkWinner b with
      | some r => exact ⟨scoreOf r, minimaxFuel_terminal fuel b r m hcw⟩
      | none =>
          rcases checkWinner_none_not_full b hcw with ⟨i0, hi0⟩
          have hchild : ∀ (i : Fin 9) (mk : Mark), b i = none →
              emptyCount (setCell b i (some mk)) < fuel := by
            intro i mk hi
            have := emptyCount_setCell b i mk hi
            omega
          rw [minimaxFuel_of_none fuel b m hcw]
          cases m
          · show ∃ v : Int,
              (List.finRange 9).foldl (mmStep fuel b false) JsNum.posInf = JsNum.int v
            obtain ⟨h1, h2, h3⟩ := foldl_mmStep_min fuel b (List.finRange 9) JsNum.posInf
            rcases h3 with hr | ⟨i, _, hbi, hr⟩
            · obtain ⟨v, hv⟩ := ih (setCell b i0 (some Mark.X)) true (hchild i0 Mark.X hi0)
              have h2i := h2 i0 (List.mem_finRange i0) hi0
              rw [hr, hv] at h2i
              exact absurd h2i (by simp [jlt])
            · obtain ⟨v, hv⟩ := ih _ true (hchild i Mark.X hbi)
              exact ⟨v, by rw [hr, hv]⟩
          · show ∃ v : Int,
              (List.finRange 9).foldl (mmStep fuel b true) JsNum.negInf = JsNum.int v
            obtain ⟨h1, h2, h3⟩ := foldl_mmStep_max fuel b (List.finRange 9) JsNum.negInf
            rcases h3 with hr | ⟨i, _, hbi, hr⟩
            · obtain ⟨v, hv⟩ := ih (setCell b i0 (some Mark.O)) false (hchild i0 Mark.O hi0)
              have h2i := h2 i0 (List.mem_finRange i0) hi0
              rw [hr, hv] at h2i
              exact absurd h2i (by simp [jlt])
            · obtain ⟨v, hv⟩ := ih _ false (hchild i Mark.O hbi)
              exact ⟨v, by rw [hr, hv]⟩

theorem minimax_int (b : Board) (m : Bool) : ∃ v : Int, minimax b m = JsNum.int v :=
  minimaxFuel_int 10 b m (by have := emptyCount_le_nine b; omega)

theorem minimax_eq_mval (b : Board) (m : Bool) : minimax b m = JsNum.int (mval b m) := by
  obtain ⟨v, hv⟩ := minimax_int b m
  simp [mval, hv]

theorem minimaxFuel_irrel :
    ∀ (f g : Nat) (b : Board) (m : Bool), emptyCount b < f → emptyCount b < g →
      minimaxFuel f b m = minimaxFuel g b m := by
  intro f
  induction f with
  | zero => intro g b m hf _; exact absurd hf (Nat.not_lt_zero _)
  | succ f ihf =>
      intro g b m hf hg
      cases g with
      | zero => exact absurd hg (Nat.not_lt_zero _)
      | succ g =>
          cases hcw : checkWinner b with
          | some r =>
              rw [minimaxFuel_terminal f b r m hcw, minimaxFuel_terminal g b r m hcw]
          | none =>
              rw [minimaxFuel_of_none f b m hcw, minimaxFuel_of_none g b m hcw]
              apply List.foldl_ext
              intro acc i hi
              by_cases hbi : b i = none
              · have hc := emptyCount_setCell b i (mmPlayer m) hbi
                rw [mmStep_of_none f b m acc i hbi, mmStep_of_none g b m acc i hbi,
                  ihf g (setCell b i (some (mmPlayer m))) (!m) (by omega) (by omega)]
              · rw [mmStep_of_occupied f b m acc i hbi, mmStep_of_occupied g b m acc i hbi]

theorem minimax_eq_fuel (f : Nat) (b : Board) (m : Bool) (hf : emptyCount b < f) :
    minimax b m = minimaxFuel f b m :=
  minimaxFuel_irrel 10 f b m (by have := emptyCount_le_nine b; omega) hf

theorem minimax_child_fuel (b : Board) (i : Fin 9) (mk : Mark) (m' : Bool) (hi : b i = none) :
    minimaxFuel 9 (setCell b i (some mk)) m' = minimax (setCell b i (some mk)) m' := by
  have h1 := emptyCount_setCell b i mk hi
  have h2 := emptyCount_le_nine b
  exact (minimax_eq_fuel 9 _ m' (by omega)).symm

theorem mval_child_le_max (b : Board) (h : checkWinner b = none) (i : Fin 9) (hi : b i = none) :
    mval (setCell b i (some Mark.O)) false ≤ mval b true := by
  obtain ⟨h1, h2, h3⟩ := foldl_mmStep_max 9 b (List.finRange 9) JsNum.negInf
  have h2i := h2 i (List.mem_finRange i) hi
  rw [minimax_child_fuel b i Mark.O false hi] at h2i
  have hfold : minimax b true = (List.finRange 9).foldl (mmStep 9 b true) JsNum.negInf :=
    minimax_of_none b true h
  rw [minimax_eq_mval b true] at hfold
  rw [← hfold, minimax_eq_mval (setCell b i (some Mark.O)) false] at h2i
  exact (jnlt_int_iff _ _).mp h2i

theorem mval_max_achieved (b : Board) (h : checkWinner b = none) :
    ∃ i, b i = none ∧ mval b true = mval (setCell b i (some Mark.O)) false := by
  obtain ⟨h1, h2, h3⟩ := foldl_mmStep_max 9 b (List.finRange 9) JsNum.negInf
  have hfold : minimax b true = (List.finRange 9).foldl (mmStep 9 b true) JsNum.negInf :=
    minimax_of_none b true h
  rcases h3 with hr | ⟨i, _, hbi, hr⟩
  · exfalso
    rw [hr, minimax_eq_mval b true] at hfold
    exact JsNum.noConfusion hfold
  · refine ⟨i, hbi, ?_⟩
    rw [minimax_child_fuel b i Mark.O false hbi] at hr
    rw [hr, minimax_eq_mval b true, minimax_eq_mval _ false] at hfold
    exact JsNum.int.inj hfold

theorem mval_min_le (b : Board) (h : checkWinner b = none) (i : Fin 9) (hi : b i = none) :
    mval b false ≤ mval (setCell b i (some Mark.X)) true := by
  obtain ⟨h1, h2, h3⟩ := foldl_mmStep_min 9 b (List.finRange 9) JsNum.posInf
  have h2i := h2 i (List.mem_finRange i) hi
  rw [minimax_child_fuel b i Mark.X true hi] at h2i
  have hfold : minimax b false = (List.finRange 9).foldl (mmStep 9 b false) JsNum.posInf :=
    minimax_of_none b false h
  rw [minimax_eq_mval b false] at hfold
  rw [← hfold, minimax_eq_mval (setCell b i (some Mark.X)) true] at h2i
  exact (jnlt_int_iff _ _).mp h2i

theorem mval_min_achieved (b : Board) (h : checkWinner b = none) :
    ∃ i, b i = none ∧ mval b false = mval (setCell b i (some Mark.X)) true := by
  obtain ⟨h1, h2, h3⟩ := foldl_mmStep_min 9 b (List.finRange 9) JsNum.posInf
  have hfold : minimax b false = (List.finRange 9).foldl (mmStep 9 b false) JsNum.posInf :=
    minimax_of_none b false h
  rcases h3 with hr | ⟨i, _, hbi, hr⟩
  · exfalso
    rw [hr, minimax_eq_mval b false] at hfold
    exact JsNum.noConfusion hfold
  · refine ⟨i, hbi, ?_⟩
    rw [minimax_child_fuel b i Mark.X true hbi] at hr
    rw [hr, minimax_eq_mval b false, minimax_eq_mval _ true] at hfold
    exact JsNum.int.inj hfold

/-! ## The guarantee predicate `secures` -/

theorem any_congr_mem (p q : Fin 9 → Bool) :
    ∀ (l : List (Fin 9)), (∀ x ∈ l, p x = q x) → l.any p = l.any q := by
  intro l
  induction l with
  | nil => intro _; rfl
  | cons a t ih =>
      intro h
      simp only [List.any_cons, h a (List.mem_cons_self a t),
        ih fun x hx => h x (List.mem_cons_of_mem a hx)]

theorem all_congr_mem (p q : Fin 9 → Bool) :
    ∀ (l : List (Fin 9)), (∀ x ∈ l, p x = q x) → l.all p = l.all q := by
  intro l
  induction l with
  | nil => intro _; rfl
  | cons a t ih =>
      intro h
      simp only [List.all_cons, h a (List.mem_cons_self a t),
        ih fun x hx => h x (List.mem_cons_of_mem a hx)]

theorem securesFuel_terminal (fuel : Nat) (t : Int) (b : Board) (r : WinResult) (o : Bool)
    (h : checkWinner b = some r) :
    securesFuel (fuel + 1) t b o = decide (t ≤ scoreOf r) := by
  rw [securesFuel, h]
  cases r with
  | mark mk => cases mk <;> rfl
  | tie => rfl

theorem securesFuel_of_none_true (fuel : Nat) (t : Int) (b : Board) (h : checkWinner b = none) :
    securesFuel (fuel + 1) t b true
      = (List.finRange 9).any fun i =>
          if b i = none then securesFuel fuel t (setCell b i (some Mark.O)) false
          else false := by
  rw [securesFuel, h]
  rfl

theorem securesFuel_of_none_false (fuel : Nat) (t : Int) (b : Board) (h : checkWinner b = none) :
    securesFuel (fuel + 1) t b false
      = (List.finRange 9).all fun i =>
          if b i = none then securesFuel fuel t (setCell b i (some Mark.X)) true
          else true := by
  rw [securesFuel, h]
  rfl

theorem securesFuel_irrel :
    ∀ (f g : Nat) (t : Int) (b : Board) (o : Bool), emptyCount b < f → emptyCount b < g →
      securesFuel f t b o = securesFuel g t b o := by
  intro f
  induction f with
  | zero => intro g t b o hf _; exact absurd hf (Nat.not_lt_zero _)
  | succ f ihf =>
      intro g t b o hf hg
      cases g with
      | zero => exact absurd hg (Nat.not_lt_zero _)
      | succ g =>
          cases hcw : checkWinner b with
          | some r =>
              rw [securesFuel_terminal f t b r o hcw, securesFuel_terminal g t b r o hcw]
          | none =>
              cases o
              · rw [securesFuel_of_none_false f t b hcw, securesFuel_of_none_false g t b hcw]
                apply all_congr_mem
                intro i _
                by_cases hbi : b i = none
                · have hc := emptyCount_setCell b i Mark.X hbi
                  rw [if_pos hbi, if_pos hbi, ihf g t _ true (by omega) (by omega)]
                · rw [if_neg hbi, if_neg hbi]
              · rw [securesFuel_of_none_true f t b hcw, securesFuel_of_none_true g t b hcw]
                apply any_congr_mem
                intro i _
                by_cases hbi : b i = none
                · have hc := emptyCount_setCell b i Mark.O hbi
                  rw [if_pos hbi, if_pos hbi, ihf g t _ false (by omega) (by omega)]
                · rw [if_neg hbi, if_neg hbi]

theorem secures_child_fuel (t : Int) (b : Board) (i : Fin 9) (mk : Mark) (o : Bool)
    (hi : b i = none) :
    securesFuel 9 t (setCell b i (some mk)) o = secures t (setCell b i (some mk)) o := by
  have h1 := emptyCount_setCell b i mk hi
  have h2 := emptyCount_le_nine b
  exact securesFuel_irrel 9 10 t _ o (by omega) (by omega)

theorem secures_terminal (t : Int) (b : Board) (r : WinResult) (o : Bool)
    (h : checkWinner b = some r) : secures t b o = decide (t ≤ scoreOf r) :=
  securesFuel_terminal 9 t b r o h

theorem secures_true_iff (t : Int) (b : Board) (h : checkWinner b = none) :
    secures t b true = true
      ↔ ∃ i, b i = none ∧ secures t (setCell b i (some Mark.O)) false = true := by
  have hu := securesFuel_of_none_true 9 t b h
  rw [show secures t b true = securesFuel (9 + 1) t b true from rfl, hu, List.any_eq_true]
  constructor
  · rintro ⟨i, -, hp⟩
    by_cases hbi : b i = none
    · rw [if_pos hbi, secures_child_fuel t b i Mark.O false hbi] at hp
      exact ⟨i, hbi, hp⟩
    · rw [if_neg hbi] at hp
      exact absurd hp (by simp)
  · rintro ⟨i, hbi, hs⟩
    refine ⟨i, List.mem_finRange i, ?_⟩
    rw [if_pos hbi, secures_child_fuel t b i Mark.O false hbi]
    exact hs

theorem secures_false_iff (t : Int) (b : Board) (h : checkWinner b = none) :
    secures t b false = true
      ↔ ∀ i, b i = none → secures t (setCell b i (some Mark.X)) true = true := by
  have hu := securesFuel_of_none_false 9 t b h
  rw [show secures t b false = securesFuel (9 + 1) t b false from rfl, hu, List.all_eq_true]
  constructor
  · intro hall i hbi
    have := hall i (List.mem_finRange i)
    rw [if_pos hbi, secures_child_fuel t b i Mark.X true hbi] at this
    exact this
  · intro hall i _
    by_cases hbi : b i = none
    · rw [if_pos hbi, secures_child_fuel t b i Mark.X true hbi]
      exact hall i hbi
    · rw [if_neg hbi]

theorem securesFuel_mono :
    ∀ (fuel : Nat) (t t' : Int) (b : Board) (o : Bool), t ≤ t' →
      securesFuel fuel t' b o = true → securesFuel fuel t b o = true := by
  intro fuel
  induction fuel with
  | zero => intro t t' b o _ hs; exact absurd hs (by simp [securesFuel])
  | succ fuel ih =>
      intro t t' b o htt hs
      cases hcw : checkWinner b with
      | some r =>
          rw [securesFuel_terminal fuel t' b r o hcw] at hs
          rw [securesFuel_terminal fuel t b r o hcw]
          have := of_decide_eq_true hs
          exact decide_eq_true (by omega)
      | none =>
          cases o
          · rw [securesFuel_of_none_false fuel t' b hcw, List.all_eq_true] at hs
            rw [securesFuel_of_none_false fuel t b hcw, List.all_eq_true]
            intro i hi
            have := hs i hi
            by_cases hbi : b i = none
            · rw [if_pos hbi] at this ⊢
              exact ih t t' _ true htt this
            · rw [if_neg hbi]
          · rw [securesFuel_of_none_true fuel t' b hcw, List.any_eq_true] at hs
            rw [securesFuel_of_none_true fuel t b hcw, List.any_eq_true]
            obtain ⟨i, hi, hp⟩ := hs
            refine ⟨i, hi, ?_⟩
            by_cases hbi : b i = none
            · rw [if_pos hbi] at hp ⊢
              exact ih t t' _ false htt hp
            · rw [if_neg hbi] at hp
              exact absurd hp (by simp)

theorem secures_mono (t t' : Int) (b : Board) (o : Bool) (htt : t ≤ t')
    (hs : secures t' b o = true) : secures t b o = true :=
  securesFuel_mono 10 t t' b o htt hs

theorem secures_mval_aux :
    ∀ (n : Nat) (b : Board) (m : Bool), emptyCount b ≤ n → secures (mval b m) b m = true := by
  intro n
  induction n using Nat.strong_induction_on with
  | _ n ih =>
      intro b m hn
      cases hcw : checkWinner b with
      | some r =>
          have hmv : mval b m = scoreOf r := by
            have h1 := minimax_terminal b r m hcw
            have h2 := minimax_eq_mval b m
            rw [h1] at h2
            exact (JsNum.int.inj h2).symm
          rw [secures_terminal (mval b m) b r m hcw, hmv]
          simp
      | none =>
          have hchildcount : ∀ (i : Fin 9) (mk : Mark), b i = none →
              emptyCount (setCell b i (some mk)) < n := by
            intro i mk hbi
            have := emptyCount_setCell b i mk hbi
            omega
          cases m
          · rw [secures_false_iff (mval b false) b hcw]
            intro i hbi
            have hle := mval_min_le b hcw i hbi
            have hchild := ih (emptyCount (setCell b i (some Mark.X)))
              (hchildcount i Mark.X hbi) (setCell b i (some Mark.X)) true le_rfl
            exact secures_mono _ _ _ _ hle hchild
          · rw [secures_true_iff (mval b true) b hcw]
            obtain ⟨i, hbi, heq⟩ := mval_max_achieved b hcw
            refine ⟨i, hbi, ?_⟩
            rw [heq]
            exact ih (emptyCount (setCell b i (some Mark.O)))
              (hchildcount i Mark.O hbi) (setCell b i (some Mark.O)) false le_rfl

theorem secures_mval (b : Board) (m : Bool) : secures (mval b m) b m = true :=
  secures_mval_aux (emptyCount b) b m le_rfl

theorem secures_le_mval_aux :
    ∀ (n : Nat) (b : Board) (m : Bool) (t : Int), emptyCount b ≤ n →
      secures t b m = true → t ≤ mval b m := by
  intro n
  induction n using Nat.strong_induction_on with
  | _ n ih =>
      intro b m t hn hs
      cases hcw : checkWinner b with
      | some r =>
          have hmv : mval b m = scoreOf r := by
            have h1 := minimax_terminal b r m hcw
            have h2 := minimax_eq_mval b m
            rw [h1] at h2
            exact (JsNum.int.inj h2).symm
          rw [secures_terminal t b r m hcw] at hs
          have := of_decide_eq_true hs
          omega
      | none =>
          have hchildcount : ∀ (i : Fin 9) (mk : Mark), b i = none →
              emptyCount (setCell b i (some mk)) < n := by
            intro i mk hbi
            have := emptyCount_setCell b i mk hbi
            omega
          cases m
          · rw [secures_false_iff t b hcw] at hs
            obtain ⟨i, hbi, heq⟩ := mval_min_achieved b hcw
            have := ih (emptyCount (setCell b i (some Mark.X)))
              (hchildcount i Mark.X hbi) (setCell b i (some Mark.X)) true t le_rfl (hs i hbi)
            omega
          · rw [secures_true_iff t b hcw] at hs
            obtain ⟨i, hbi, hsec⟩ := hs
            have h1 := ih (emptyCount (setCell b i (some Mark.O)))
              (hchildcount i Mark.O hbi) (setCell b i (some Mark.O)) false t le_rfl hsec
            have h2 := mval_child_le_max b hcw i hbi
            omega

theorem secures_le_mval (b : Board) (m : Bool) (t : Int) (hs : secures t b m = true) :
    t ≤ mval b m :=
  secures_le_mval_aux (emptyCount b) b m t le_rfl hs

/-! ## Characterisation of the move selection of `computerMove` -/

theorem moveScore_eq (b : Board) (i : Fin 9) :
    moveScore b i = JsNum.int (mval (setCell b i (some Mark.O)) false) :=
  minimax_eq_mval _ _

theorem selectLoop_cons (b : Board) (a : Fin 9) (rest : List (Fin 9)) (best : JsNum)
    (move : Option (Fin 9)) :
    selectLoop b (a :: rest) best move
      = if jlt best (moveScore b a) then selectLoop b rest (moveScore b a) (some a)
        else selectLoop b rest best move := rfl

theorem selectLoop_spec (b : Board) :
    ∀ (idxs : List (Fin 9)) (best : JsNum) (move : Option (Fin 9)),
      idxs.Pairwise (· < ·) →
      (∀ a : Fin 9, move = some a → ∀ j ∈ idxs, a < j) →
      jlt (selectLoop b idxs best move).1 best = false
      ∧ (∀ i ∈ idxs, jlt (selectLoop b idxs best move).1 (moveScore b i) = false)
      ∧ (((selectLoop b idxs best move).1 = best ∧ (selectLoop b idxs best move).2 = move
            ∧ ∀ j ∈ idxs, jlt best (moveScore b j) = false)
          ∨ ∃ i ∈ idxs, (selectLoop b idxs best move).2 = some i
              ∧ (selectLoop b idxs best move).1 = moveScore b i
              ∧ jlt best (selectLoop b idxs best move).1 = true)
      ∧ (∀ i : Fin 9, (selectLoop b idxs best move).2 = some i → i ∈ idxs →
          ∀ j ∈ idxs, j < i → jlt (moveScore b j) (selectLoop b idxs best move).1 = true) := by
  intro idxs
  induction idxs with
  | nil =>
      intro best move _ _
      refine ⟨jlt_irrefl best, by simp, Or.inl ⟨rfl, rfl, by simp⟩, ?_⟩
      intro i _ hi
      exact absurd hi (List.not_mem_nil i)
  | cons a rest ih =>
      intro best move hpw hpre
      have ha_rest : ∀ j ∈ rest, a < j := fun j hj => (List.pairwise_cons.mp hpw).1 j hj
      have hrest : rest.Pairwise (· < ·) := (List.pairwise_cons.mp hpw).2
      have ha_notmem : a ∉ rest := fun hmem => lt_irrefl a (ha_rest a hmem)
      rw [selectLoop_cons]
      cases hlt : jlt best (moveScore b a)
      · rw [if_neg (by simp [hlt])]
        have hpre' : ∀ a' : Fin 9, move = some a' → ∀ j ∈ rest, a' < j := fun a' ha' j hj =>
          hpre a' ha' j (List.mem_cons_of_mem a hj)
        obtain ⟨ih1, ih2, ih3, ih4⟩ := ih best move hrest hpre'
        refine ⟨ih1, ?_, ?_, ?_⟩
        · intro i hi
          rcases List.mem_cons.mp hi with hi | hi
          · subst hi
            exact jnlt_trans hlt ih1
          · exact ih2 i hi
        · rcases ih3 with ⟨h31, h32, h33⟩ | ⟨i, hi, hsel, hval, hgt⟩
          · refine Or.inl ⟨h31, h32, ?_⟩
            intro j hj
            rcases List.mem_cons.mp hj with hj | hj
            · subst hj
              exact hlt
            · exact h33 j hj
          · exact Or.inr ⟨i, List.mem_cons_of_mem a hi, hsel, hval, hgt⟩
        · intro i hsel hi j hj hji
          rcases List.mem_cons.mp hi with hi | hi
          · exfalso
            subst hi
            rcases List.mem_cons.mp hj with hj | hj
            · subst hj
              exact absurd hji (lt_irrefl _)
            · exact absurd hji (lt_asymm (ha_rest j hj))
          · rcases ih3 with ⟨h31, h32, h33⟩ | ⟨i', hi', hsel', hval', hgt'⟩
            · exfalso
              have hmv : move = some i := h32 ▸ hsel
              exact lt_irrefl i (hpre i hmv i (List.mem_cons_of_mem a hi))
            · have hii' : i = i' := Option.some.inj (hsel.symm.trans hsel')
              rcases List.mem_cons.mp hj with hj | hj
              · subst hj
                exact jlt_of_nlt_of_lt hlt hgt'
              · exact ih4 i hsel hi j hj hji
      · rw [if_pos rfl]
        have hpre' : ∀ a' : Fin 9, (some a : Option (Fin 9)) = some a' → ∀ j ∈ rest, a' < j := by
          intro a' ha' j hj
          cases Option.some.inj ha'
          exact ha_rest j hj
        obtain ⟨ih1, ih2, ih3, ih4⟩ := ih (moveScore b a) (some a) hrest hpre'
        refine ⟨jnlt_of_lt_of_nlt hlt ih1, ?_, ?_, ?_⟩
        · intro i hi
          rcases List.mem_cons.mp hi with hi | hi
          · subst hi
            exact ih1
          · exact ih2 i hi
        · rcases ih3 with ⟨h31, h32, h33⟩ | ⟨i, hi, hsel, hval, hgt⟩
          · refine Or.inr ⟨a, List.mem_cons_self a rest, h32, h31, ?_⟩
            rw [h31]
            exact hlt
          · exact Or.inr ⟨i, List.mem_cons_of_mem a hi, hsel, hval, jlt_trans hlt hgt⟩
        · intro i hsel hi j hj hji
          rcases List.mem_cons.mp hi with hi | hi
          · exfalso
            subst hi
            rcases List.mem_cons.mp hj with hj | hj
            · subst hj
              exact absurd hji (lt_irrefl _)
            · exact absurd hji (lt_asymm (ha_rest j hj))
          · rcases ih3 with ⟨h31, h32, h33⟩ | ⟨i', hi', hsel', hval', hgt'⟩
            · exfalso
              have hia : i = a := Option.some.inj (h32 ▸ hsel).symm
              exact ha_notmem (hia ▸ hi)
            · have hii' : i = i' := Option.some.inj (hsel.symm.trans hsel')
              rcases List.mem_cons.mp hj with hj | hj
              · subst hj
                exact hgt'
              · exact ih4 i hsel hi j hj hji

theorem bestMove_spec (b : Board) (h : checkWinner b = none) :
    ∃ m : Fin 9, bestMove b = some m ∧ b m = none
      ∧ (∀ i, b i = none → jlt (moveScore b m) (moveScore b i) = false)
      ∧ (∀ j, b j = none → j < m → jlt (moveScore b j) (moveScore b m) = true) := by
  obtain ⟨c1, c2, c3, c4⟩ := selectLoop_spec b (emptySquares b) JsNum.negInf none
    (emptySquares_pairwise b) (by intro a ha; exact absurd ha (by simp))
  rcases checkWinner_none_not_full b h with ⟨i0, hi0⟩
  have hi0mem : i0 ∈ emptySquares b := (mem_emptySquares b i0).mpr hi0
  rcases c3 with ⟨h31, h32, h33⟩ | ⟨m, hm, hsel, hval, hgt⟩
  · exfalso
    have := c2 i0 hi0mem
    rw [h31, moveScore_eq] at this
    exact absurd this (by simp [jlt])
  · refine ⟨m, hsel, (mem_emptySquares b m).mp hm, ?_, ?_⟩
    · intro i hi
      have := c2 i ((mem_emptySquares b i).mpr hi)
      rw [hval] at this
      exact this
    · intro j hj hjm
      have := c4 m hsel hm j ((mem_emptySquares b j).mpr hj) hjm
      rw [hval] at this
      exact this

/-! ## Further facts about `bestMove` and the handlers -/

theorem bestMove_some_empty (b : Board) (m : Fin 9) (h : bestMove b = some m) :
    b m = none := by
  obtain ⟨c1, c2, c3, c4⟩ := selectLoop_spec b (emptySquares b) JsNum.negInf none
    (emptySquares_pairwise b) (by intro a ha; exact absurd ha (by simp))
  have h' : (selectLoop b (emptySquares b) JsNum.negInf none).2 = some m := h
  rcases c3 with ⟨h31, h32, h33⟩ | ⟨i, hi, hsel, hval, hgt⟩
  · rw [h32] at h'
    exact Option.noConfusion h'
  · rw [hsel] at h'
    have him : i = m := Option.some.inj h'
    subst him
    exact (mem_emptySquares b i).mp hi

theorem bestMove_none_nil (b : Board) (h : bestMove b = none) : emptySquares b = [] := by
  cases hes : emptySquares b with
  | nil => rfl
  | cons a rest =>
      exfalso
      have hpw : (a :: rest).Pairwise (· < ·) := hes ▸ emptySquares_pairwise b
      have hrest : rest.Pairwise (· < ·) := (List.pairwise_cons.mp hpw).2
      have ha_rest : ∀ j ∈ rest, a < j := (List.pairwise_cons.mp hpw).1
      have h' : (selectLoop b (emptySquares b) JsNum.negInf none).2 = none := h
      rw [hes, selectLoop_cons] at h'
      have hseed : jlt JsNum.negInf (moveScore b a) = true := by
        rw [moveScore_eq]
        rfl
      rw [if_pos hseed] at h'
      have hpre' : ∀ a' : Fin 9, (some a : Option (Fin 9)) = some a' → ∀ j ∈ rest, a' < j := by
        intro a' ha' j hj
        cases Option.some.inj ha'
        exact ha_rest j hj
      rcases (selectLoop_spec b rest (moveScore b a) (some a) hrest hpre').2.2.1 with
        ⟨h31, h32, h33⟩ | ⟨i, hi, hsel, hval, hgt⟩
      · rw [h32] at h'
        exact Option.noConfusion h'
      · rw [hsel] at h'
        exact Option.noConfusion h'

theorem emptySquares_nil_of_full (b : Board) (h : isFull b = true) : emptySquares b = [] := by
  rw [isFull_iff] at h
  unfold emptySquares
  rw [List.filter_eq_nil]
  intro i _
  simp only [decide_eq_true_eq]
  intro hbi
  have := h i
  rw [hbi] at this
  simp at this

theorem bestMove_of_full (b : Board) (h : isFull b = true) : bestMove b = none := by
  have hnil := emptySquares_nil_of_full b h
  unfold bestMove
  rw [hnil]
  rfl

/-! ## Claim C4: a click on an occupied cell -/

/-- Claim C4, counterexample: on a state whose cell 0 is occupied,
`handleClick` does leave the state unchanged, but it returns silently
(`.ok`) — it does not fail with `InvalidMove` as the claim states. -/
theorem C4_counterexample :
    (clickState.board 0).isSome = true
    ∧ handleClick clickState 0 = Except.ok clickState
    ∧ handleClick clickState 0 ≠ Except.error GameError.InvalidMove := by
  decide

/-- Claim C4, amended: for every state and every index whose cell is already
occupied, `handleClick` returns successfully with the entire state unchanged
(a silent no-op); no `InvalidMove` error is signalled. -/
theorem C4_amended_click_occupied_silent (s : GameState) (i : Fin 9)
    (h : (s.board i).isSome = true) : handleClick s i = Except.ok s := by
  unfold handleClick
  rw [if_pos (by rw [h]; rfl)]

/-- Witness for `C4_amended_click_occupied_silent` at `clickState`, cell 0. -/
theorem C4_witness :
    (clickState.board 0).isSome = true ∧ handleClick clickState 0 = Except.ok clickState :=
  ⟨by decide, C4_amended_click_occupied_silent clickState 0 (by decide)⟩

/-! ## Claim C5: a click once the game is over -/

/-- Claim C5, counterexample: `wonState.board` is terminal (`"X"` has won),
yet `handleClick` neither fails with `GameAlreadyOver` nor leaves the board
unchanged: because the `winner` field is not yet recorded, it happily places
a further `"X"` at cell 5. -/
theorem C5_counterexample :
    checkWinner wonState.board = some (WinResult.mark Mark.X)
    ∧ handleClick wonState 5
        = Except.ok
            { wonState with
              board := setCell wonState.board 5 (some Mark.X)
              isPlayerTurn := false }
    ∧ handleClick wonState 5 ≠ Except.error GameError.GameAlreadyOver
    ∧ setCell wonState.board 5 (some Mark.X) 5 ≠ wonState.board 5 := by
  decide

/-- Claim C5, amended: `handleClick` never signals an error; it performs no
mutation whenever the stored `winner` field is set.  (A terminal board whose
winner is not yet recorded can still be mutated, see `C5_counterexample`.) -/
theorem C5_amended_winner_recorded_silent (s : GameState) (i : Fin 9)
    (h : s.winner.isSome = true) : handleClick s i = Except.ok s := by
  unfold handleClick
  rw [if_pos (by simp [h])]

/-- Witness for `C5_amended_winner_recorded_silent` at `wonRecordedState`, cell 5. -/
theorem C5_witness :
    wonRecordedState.winner.isSome = true
    ∧ handleClick wonRecordedState 5 = Except.ok wonRecordedState :=
  ⟨by decide, C5_amended_winner_recorded_silent wonRecordedState 5 (by decide)⟩

/-! ## Claim C6: asking the engine for a move on a terminal board -/

/-- Claim C6, counterexample: on the full draw board, `computerMove` does not
signal `PreconditionViolated`; it returns silently with the board unchanged,
merely setting `isPlayerTurn`. -/
theorem C6_counterexample :
    checkWinner fullState.board = some WinResult.tie
    ∧ computerMove fullState = Except.ok { fullState with isPlayerTurn := true }
    ∧ computerMove fullState ≠ Except.error GameError.PreconditionViolated := by
  decide

/-- Claim C6, amended: `computerMove` signals no error on a terminal board;
on a full board it changes no cell and just sets `isPlayerTurn` to `true`. -/
theorem C6_amended_full_board_silent (s : GameState) (h : isFull s.board = true) :
    computerMove s = Except.ok { s with isPlayerTurn := true } := by
  unfold computerMove
  rw [bestMove_of_full s.board h]

/-- Witness for `C6_amended_full_board_silent` at `fullState`. -/
theorem C6_witness :
    isFull fullState.board = true
    ∧ computerMove fullState = Except.ok { fullState with isPlayerTurn := true } :=
  ⟨by decide, C6_amended_full_board_silent fullState (by decide)⟩

/-! ## Claim C9: spec scenario 3 -/

/-- Claim C9: on `[A,B,A,B,A,B,Empty,Empty,Empty]` with `B` (`"O"`) to move,
`bestMove` returns 6 or 8, a cell blocking one of `A`'s diagonal threats
(concretely it returns 6, the first empty cell, all replies scoring equal). -/
theorem C9_scenario3_blocks :
    bestMove scenario3Board = some 6 ∨ bestMove scenario3Board = some 8 :=
  Or.inl (by decide)

/-! ## Claim C2: `checkWinner` -/

/-- Claim C2, counterexample: on a board where both marks own a line, the
claim "returns `Win(m)` if any line is won by `m`" fails for `m = "O"`:
`checkWinner` returns the first winning combination's mark, `"X"`. -/
theorem C2_counterexample :
    lineWon doubleWinBoard Mark.O
    ∧ checkWinner doubleWinBoard ≠ some (WinResult.mark Mark.O) := by
  decide

/-- Claim C2, amended: if some line is won, `checkWinner` returns `Win(mw)`
for a mark `mw` that owns a line; when a single mark owns all winning lines
(in particular on every board reachable by legal play) that mark is returned;
with no winning line the result is `Draw` exactly on a full board and
`InProgress` otherwise. -/
theorem C2_amended_checkWinner (b : Board) :
    (∀ m, lineWon b m → ∃ mw, checkWinner b = some (WinResult.mark mw) ∧ lineWon b mw)
    ∧ (∀ m, lineWon b m → (∀ m', lineWon b m' → m' = m)
        → checkWinner b = some (WinResult.mark m))
    ∧ ((∀ m, ¬ lineWon b m)
        → checkWinner b = if isFull b then some WinResult.tie else none) := by
  cases hf : winningCombinations.find?
      (fun t => decide (b t.1 ≠ none ∧ b t.1 = b t.2.1 ∧ b t.1 = b t.2.2)) with
  | none =>
      have hnone : ∀ m, ¬ lineWon b m := by
        rintro m ⟨t, ht, h1, h2, h3⟩
        have hnt := List.find?_eq_none.mp hf t ht
        apply hnt
        refine decide_eq_true ⟨?_, ?_, ?_⟩
        · rw [h1]
          simp
        · rw [h1, h2]
        · rw [h1, h3]
      have hcw : checkWinner b = if isFull b then some WinResult.tie else none := by
        unfold checkWinner
        rw [hf]
      refine ⟨?_, ?_, fun _ => hcw⟩
      · intro m hm
        exact absurd hm (hnone m)
      · intro m hm _
        exact absurd hm (hnone m)
  | some t =>
      have hp := List.find?_some hf
      have hmem := List.mem_of_find?_eq_some hf
      rcases of_decide_eq_true hp with ⟨hne, h2, h3⟩
      cases hbt : b t.1 with
      | none => exact absurd hbt hne
      | some mw =>
          have hcw : checkWinner b = some (WinResult.mark mw) := by
            unfold checkWinner
            rw [hf]
            show Option.map WinResult.mark (b t.1) = some (WinResult.mark mw)
            rw [hbt]
            rfl
          have hwon : lineWon b mw := by
            refine ⟨t, hmem, hbt, ?_, ?_⟩
            · rw [← h2]
              exact hbt
            · rw [← h3]
              exact hbt
          refine ⟨fun m _ => ⟨mw, hcw, hwon⟩, ?_, ?_⟩
          · intro m _ huniq
            rw [hcw, huniq mw hwon]
          · intro hnone
            exact absurd hwon (hnone mw)

/-- Witness for `C2_amended_checkWinner` at `xWonBoard`, whose only line
winner is `"X"`. -/
theorem C2_witness :
    lineWon xWonBoard Mark.X ∧ (∀ m', lineWon xWonBoard m' → m' = Mark.X)
    ∧ checkWinner xWonBoard = some (WinResult.mark Mark.X) :=
  ⟨by decide, by decide,
    (C2_amended_checkWinner xWonBoard).2.1 Mark.X (by decide) (by decide)⟩

/-! ## Claim C3: deterministic tie-break by lowest index -/

/-- Claim C3: on every non-terminal board `bestMove` returns the empty cell
whose `"O"`-move score is maximal, and among equally-scored moves the one
with the smallest index (the selection loop runs over `emptySquares` in
ascending order and replaces only on strict improvement).  `bestMove` is a
pure function, so the choice is identical on every run; with the all-empty
board this covers the claim's opening-board instance (see `C3_witness`). -/
theorem C3_tiebreak_lowest_index (b : Board) (h : checkWinner b = none) :
    ∃ m : Fin 9, bestMove b = some m ∧ b m = none
      ∧ (∀ i, b i = none →
          mval (setCell b i (some Mark.O)) false ≤ mval (setCell b m (some Mark.O)) false)
      ∧ (∀ j, b j = none →
          mval (setCell b j (some Mark.O)) false = mval (setCell b m (some Mark.O)) false →
          m ≤ j) := by
  obtain ⟨m, hbm, hm, hmax, hleast⟩ := bestMove_spec b h
  refine ⟨m, hbm, hm, ?_, ?_⟩
  · intro i hi
    have hji := hmax i hi
    rw [moveScore_eq, moveScore_eq] at hji
    exact (jnlt_int_iff _ _).mp hji
  · intro j hj heq
    by_contra hcon
    push_neg at hcon
    have hlt := hleast j hj hcon
    rw [moveScore_eq, moveScore_eq, heq, jlt_irrefl] at hlt
    exact Bool.noConfusion hlt

/-- Witness for `C3_tiebreak_lowest_index` at the all-empty opening board. -/
theorem C3_witness :
    checkWinner initialState.board = none
    ∧ ∃ m : Fin 9, bestMove initialState.board = some m ∧ initialState.board m = none
        ∧ (∀ i, initialState.board i = none →
            mval (setCell initialState.board i (some Mark.O)) false
              ≤ mval (setCell initialState.board m (some Mark.O)) false)
        ∧ (∀ j, initialState.board j = none →
            mval (setCell initialState.board j (some Mark.O)) false
              = mval (setCell initialState.board m (some Mark.O)) false → m ≤ j) :=
  ⟨by decide, C3_tiebreak_lowest_index initialState.board (by decide)⟩

/-! ## Claim C1: optimality of the engine -/

/-- Claim C1, counterexample: `lostBoard` is in progress with `"O"` to move,
but `"X"` has three simultaneous threats, so the move `bestMove` returns
(cell 1, as all replies score `-1`) does not guarantee a draw — no move
does.  The claim's unconditional "guarantees at least a draw" is false. -/
theorem C1_counterexample :
    checkWinner lostBoard = none
    ∧ xcount lostBoard = ocount lostBoard + 1
    ∧ bestMove lostBoard = some 1
    ∧ secures 0 (setCell lostBoard 1 (some Mark.O)) false = false := by
  decide

/-- Claim C1, amended: on every in-progress board with the adversary (`"O"`)
to move, the move `m` returned by `bestMove` is optimal in the guarantee
order: for every threshold `t` (`t = 0`: at least a draw; `t = 1`: a win),
if some empty cell's move would guarantee an outcome of at least `t` against
every subsequent opponent play, then the returned move guarantees it.  In
particular the engine never returns a losing move when a non-losing move
exists, and wins whenever a win is forced. -/
theorem C1_amended_optimality (b : Board) (h : checkWinner b = none)
    (hturn : xcount b = ocount b + 1) :
    ∃ m : Fin 9, bestMove b = some m ∧ b m = none
      ∧ ∀ t : Int,
          (∃ i, b i = none ∧ secures t (setCell b i (some Mark.O)) false = true) →
          secures t (setCell b m (some Mark.O)) false = true := by
  obtain ⟨m, hbm, hm, hmax, -⟩ := bestMove_spec b h
  refine ⟨m, hbm, hm, ?_⟩
  rintro t ⟨i, hi, hsec⟩
  have h1 : t ≤ mval (setCell b i (some Mark.O)) false := secures_le_mval _ _ _ hsec
  have h2 : mval (setCell b i (some Mark.O)) false
      ≤ mval (setCell b m (some Mark.O)) false := by
    have hji := hmax i hi
    rw [moveScore_eq, moveScore_eq] at hji
    exact (jnlt_int_iff _ _).mp hji
  exact secures_mono t _ _ _ (le_trans h1 h2) (secures_mval (setCell b m (some Mark.O)) false)

/-- Witness for `C1_amended_optimality` on the board after `"X"`'s opening
move at cell 0 (in progress, `"O"` to move). -/
theorem C1_witness :
    checkWinner xOpeningBoard = none
    ∧ xcount xOpeningBoard = ocount xOpeningBoard + 1
    ∧ ∃ m : Fin 9, bestMove xOpeningBoard = some m ∧ xOpeningBoard m = none
        ∧ ∀ t : Int,
            (∃ i, xOpeningBoard i = none
              ∧ secures t (setCell xOpeningBoard i (some Mark.O)) false = true) →
            secures t (setCell xOpeningBoard m (some Mark.O)) false = true :=
  ⟨by decide, by decide, C1_amended_optimality xOpeningBoard (by decide) (by decide)⟩

/-! ## Claim C7: flag-driven vs board-derived turn -/

theorem minimaxDerivedFuel_terminal (fuel : Nat) (b : Board) (r : WinResult)
    (h : checkWinner b = some r) :
    minimaxDerivedFuel (fuel + 1) b = JsNum.int (scoreOf r) := by
  rw [minimaxDerivedFuel, h]
  cases r with
  | mark mk => cases mk <;> rfl
  | tie => rfl

theorem minimaxDerivedFuel_of_none (fuel : Nat) (b : Board) (h : checkWinner b = none) :
    minimaxDerivedFuel (fuel + 1) b
      = (List.finRange 9).foldl (dStep fuel b)
          (if turnOf b = Mark.O then JsNum.negInf else JsNum.posInf) := by
  rw [minimaxDerivedFuel, h]
  rfl

theorem dStep_of_occupied (fuel : Nat) (b : Board) (best : JsNum) (i : Fin 9)
    (h : b i ≠ none) : dStep fuel b best i = best := by
  simp [dStep, h]

theorem minimaxDerivedFuel_irrel :
    ∀ (f g : Nat) (b : Board), emptyCount b < f → emptyCount b < g →
      minimaxDerivedFuel f b = minimaxDerivedFuel g b := by
  intro f
  induction f with
  | zero => intro g b hf _; exact absurd hf (Nat.not_lt_zero _)
  | succ f ihf =>
      intro g b hf hg
      cases g with
      | zero => exact absurd hg (Nat.not_lt_zero _)
      | succ g =>
          cases hcw : checkWinner b with
          | some r =>
              rw [minimaxDerivedFuel_terminal f b r hcw, minimaxDerivedFuel_terminal g b r hcw]
          | none =>
              rw [minimaxDerivedFuel_of_none f b hcw, minimaxDerivedFuel_of_none g b hcw]
              apply List.foldl_ext
              intro acc i _
              by_cases hbi : b i = none
              · have hc := emptyCount_setCell b i (turnOf b) hbi
                simp only [dStep, if_pos hbi]
                rw [ihf g (setCell b i (some (turnOf b))) (by omega) (by omega)]
              · rw [dStep_of_occupied f b acc i hbi, dStep_of_occupied g b acc i hbi]

theorem minimaxDerived_child_fuel (b : Board) (i : Fin 9) (mk : Mark) (hi : b i = none) :
    minimaxDerivedFuel 9 (setCell b i (some mk)) = minimaxDerived (setCell b i (some mk)) := by
  have h1 := emptyCount_setCell b i mk hi
  have h2 := emptyCount_le_nine b
  exact minimaxDerivedFuel_irrel 9 10 _ (by omega) (by omega)

theorem turnOf_O (b : Board) (h : ocount b < xcount b) : turnOf b = Mark.O := by
  unfold turnOf
  rw [if_pos h]

theorem turnOf_X (b : Board) (h : ¬ ocount b < xcount b) : turnOf b = Mark.X := by
  unfold turnOf
  rw [if_neg h]

theorem C7_aux :
    ∀ (n : Nat) (b : Board) (flag : Bool), emptyCount b ≤ n →
      xcount b = ocount b + (if flag then 1 else 0) → minimax b flag = minimaxDerived b := by
  intro n
  induction n using Nat.strong_induction_on with
  | _ n ih =>
      intro b flag hn hpar
      cases hcw : checkWinner b with
      | some r =>
          rw [minimax_terminal b r flag hcw,
            show minimaxDerived b = minimaxDerivedFuel (9 + 1) b from rfl,
            minimaxDerivedFuel_terminal 9 b r hcw]
      | none =>
          have hchildlt : ∀ (i : Fin 9) (mk : Mark), b i = none →
              emptyCount (setCell b i (some mk)) < n := by
            intro i mk hbi
            have := emptyCount_setCell b i mk hbi
            omega
          cases flag
          · have hx : xcount b = ocount b := by simpa using hpar
            have hturn : turnOf b = Mark.X := turnOf_X b (by omega)
            rw [minimax_of_none b false hcw,
              show minimaxDerived b = minimaxDerivedFuel (9 + 1) b from rfl,
              minimaxDerivedFuel_of_none 9 b hcw, hturn]
            show (List.finRange 9).foldl (mmStep 9 b false) JsNum.posInf
                = (List.finRange 9).foldl (dStep 9 b) JsNum.posInf
            apply List.foldl_ext
            intro acc i _
            by_cases hbi : b i = none
            · have hchild : minimaxFuel 9 (setCell b i (some Mark.X)) true
                  = minimaxDerivedFuel 9 (setCell b i (some Mark.X)) := by
                rw [minimax_child_fuel b i Mark.X true hbi,
                  minimaxDerived_child_fuel b i Mark.X hbi]
                refine ih (emptyCount (setCell b i (some Mark.X))) (hchildlt i Mark.X hbi)
                  (setCell b i (some Mark.X)) true le_rfl ?_
                rw [xcount_setCell_X b i hbi, ocount_setCell_X b i hbi]
                simp [hx]
              simp [mmStep, dStep, hbi, hturn, mmPlayer, hchild]
            · simp [mmStep, dStep, hbi]
          · have hx : xcount b = ocount b + 1 := by simpa using hpar
            have hturn : turnOf b = Mark.O := turnOf_O b (by omega)
            rw [minimax_of_none b true hcw,
              show minimaxDerived b = minimaxDerivedFuel (9 + 1) b from rfl,
              minimaxDerivedFuel_of_none 9 b hcw, hturn]
            show (List.finRange 9).foldl (mmStep 9 b true) JsNum.negInf
                = (List.finRange 9).foldl (dStep 9 b) JsNum.negInf
            apply List.foldl_ext
            intro acc i _
            by_cases hbi : b i = none
            · have hchild : minimaxFuel 9 (setCell b i (some Mark.O)) false
                  = minimaxDerivedFuel 9 (setCell b i (some Mark.O)) := by
                rw [minimax_child_fuel b i Mark.O false hbi,
                  minimaxDerived_child_fuel b i Mark.O hbi]
                refine ih (emptyCount (setCell b i (some Mark.O))) (hchildlt i Mark.O hbi)
                  (setCell b i (some Mark.O)) false le_rfl ?_
                rw [xcount_setCell_O b i hbi, ocount_setCell_O b i hbi]
                simp [hx]
              simp [mmStep, dStep, hbi, hturn, mmPlayer, hchild]
            · simp [mmStep, dStep, hbi]

/-- Claim C7, counterexample: the mark `minimax` places is decided by the
`isMaximizing` flag (line 90), not derived from the board.  On
`mixedTurnBoard` the mark counts are equal, so the derived turn is `"X"`
(which wins at once, value `-1`), yet `minimax` with the flag set places
`"O"` and reports `+1`: the implemented search and the flag-free
derived-turn search disagree. -/
theorem C7_counterexample :
    xcount mixedTurnBoard = ocount mixedTurnBoard
    ∧ turnOf mixedTurnBoard = Mark.X
    ∧ minimax mixedTurnBoard true = JsNum.int 1
    ∧ minimaxDerived mixedTurnBoard = JsNum.int (-1) := by
  decide

/-- Claim C7, amended: whenever the flag passed to `minimax` agrees with the
board-derived turn — the flag is set exactly when `"X"` has one more mark
than `"O"`, which holds for every call `computerMove` makes and is preserved
down the recursion — the implemented search computes exactly the flag-free
derived-turn search, placing the same marks at every level. -/
theorem C7_amended_flag_matches_derived_turn (b : Board) (flag : Bool)
    (hpar : xcount b = ocount b + (if flag then 1 else 0)) :
    minimax b flag = minimaxDerived b :=
  C7_aux (emptyCount b) b flag le_rfl hpar

/-- Witness for `C7_amended_flag_matches_derived_turn` on the empty board
with the flag off (`"X"` to move). -/
theorem C7_witness :
    xcount initialState.board = ocount initialState.board + (if false then 1 else 0)
    ∧ minimax initialState.board false = minimaxDerived initialState.board :=
  ⟨by decide, C7_amended_flag_matches_derived_turn initialState.board false (by decide)⟩

/-! ## Claim C8: the mark-count invariant of the event loop -/

theorem handleClick_cases (s : GameState) (i : Fin 9) (s' : GameState)
    (h : handleClick s i = Except.ok s') :
    s' = s
    ∨ (s.board i = none ∧ s.isPlayerTurn = true
        ∧ s' = { s with board := setCell s.board i (some Mark.X), isPlayerTurn := false }) := by
  unfold handleClick at h
  by_cases hg : ((s.board i).isSome || s.winner.isSome || decide (0 < s.countdown)
      || !s.gameStarted || !s.roundReady || !s.isPlayerTurn) = true
  · rw [if_pos hg] at h
    exact Or.inl (Except.ok.inj h).symm
  · rw [if_neg hg] at h
    have hb1 : s.board i = none := by
      by_contra hb
      apply hg
      have hsome : (s.board i).isSome = true := by
        rcases hx : s.board i with _ | mk
        · exact absurd hx hb
        · rfl
      simp [hsome]
    have hb6 : s.isPlayerTurn = true := by
      by_contra hb
      apply hg
      have hfalse : s.isPlayerTurn = false := by
        rcases Bool.eq_false_or_eq_true s.isPlayerTurn with hx | hx
        · exact absurd hx hb
        · exact hx
      simp [hfalse]
    exact Or.inr ⟨hb1, hb6, (Except.ok.inj h).symm⟩

theorem computerMove_cases (s s' : GameState) (h : computerMove s = Except.ok s') :
    (∃ m, bestMove s.board = some m ∧ s.board m = none
      ∧ s' = { s with board := setCell s.board m (some Mark.O), isPlayerTurn := true })
    ∨ (bestMove s.board = none ∧ s' = { s with isPlayerTurn := true }) := by
  unfold computerMove at h
  cases hbm : bestMove s.board with
  | some m =>
      rw [hbm] at h
      exact Or.inl ⟨m, rfl, bestMove_some_empty s.board m hbm, (Except.ok.inj h).symm⟩
  | none =>
      rw [hbm] at h
      exact Or.inr ⟨rfl, (Except.ok.inj h).symm⟩

theorem step_inv (s s' : GameState) (hstep : Step s s')
    (ih : (ocount s.board ≤ xcount s.board ∧ xcount s.board ≤ ocount s.board + 1)
      ∧ (s.isPlayerTurn = true → xcount s.board = ocount s.board ∨ emptySquares s.board = [])
      ∧ (s.isPlayerTurn = false → xcount s.board = ocount s.board + 1)) :
    (ocount s'.board ≤ xcount s'.board ∧ xcount s'.board ≤ ocount s'.board + 1)
    ∧ (s'.isPlayerTurn = true → xcount s'.board = ocount s'.board ∨ emptySquares s'.board = [])
    ∧ (s'.isPlayerTurn = false → xcount s'.board = ocount s'.board + 1) := by
  obtain ⟨⟨iho, ihx⟩, ihT, ihF⟩ := ih
  cases hstep with
  | click i _ hc =>
      rcases handleClick_cases s i s' hc with hs | ⟨hbi, hpt, hs⟩
      · rw [hs]
        exact ⟨⟨iho, ihx⟩, ihT, ihF⟩
      · subst hs
        have hxo : xcount s.board = ocount s.board := by
          rcases ihT hpt with he | hnil
          · exact he
          · exfalso
            have hmem : i ∈ emptySquares s.board := (mem_emptySquares _ i).mpr hbi
            rw [hnil] at hmem
            exact List.not_mem_nil i hmem
        have hx' := xcount_setCell_X s.board i hbi
        have ho' := ocount_setCell_X s.board i hbi
        refine ⟨⟨?_, ?_⟩, ?_, ?_⟩
        · show ocount (setCell s.board i (some Mark.X)) ≤ xcount (setCell s.board i (some Mark.X))
          omega
        · show xcount (setCell s.board i (some Mark.X))
            ≤ ocount (setCell s.board i (some Mark.X)) + 1
          omega
        · intro hcontra
          exact Bool.noConfusion hcontra
        · intro _
          show xcount (setCell s.board i (some Mark.X))
            = ocount (setCell s.board i (some Mark.X)) + 1
          omega
  | ai _ hpt hwin hcd hrr hcm =>
      rcases computerMove_cases s s' hcm with ⟨m, hbm, hm, hs⟩ | ⟨hbm, hs⟩
      · subst hs
        have hx1 : xcount s.board = ocount s.board + 1 := ihF hpt
        have hx' := xcount_setCell_O s.board m hm
        have ho' := ocount_setCell_O s.board m hm
        refine ⟨⟨?_, ?_⟩, ?_, ?_⟩
        · show ocount (setCell s.board m (some Mark.O)) ≤ xcount (setCell s.board m (some Mark.O))
          omega
        · show xcount (setCell s.board m (some Mark.O))
            ≤ ocount (setCell s.board m (some Mark.O)) + 1
          omega
        · intro _
          refine Or.inl ?_
          show xcount (setCell s.board m (some Mark.O)) = ocount (setCell s.board m (some Mark.O))
          omega
        · intro hcontra
          exact Bool.noConfusion hcontra
      · subst hs
        refine ⟨⟨iho, ihx⟩, ?_, ?_⟩
        · intro _
          exact Or.inr (bestMove_none_nil s.board hbm)
        · intro hcontra
          exact Bool.noConfusion hcontra
  | record w hcw hwin => exact ⟨⟨iho, ihx⟩, ihT, ihF⟩
  | tick hcd hgs => exact ⟨⟨iho, ihx⟩, ihT, ihF⟩
  | ready hcd hgs hrr => exact ⟨⟨iho, ihx⟩, ihT, ihF⟩
  | newRound =>
      refine ⟨⟨?_, ?_⟩, fun _ => Or.inl ?_, fun hc => Bool.noConfusion hc⟩
      · show ocount (fun _ => none) ≤ xcount (fun _ => none)
        decide
      · show xcount (fun _ => none) ≤ ocount (fun _ => none) + 1
        decide
      · show xcount (fun _ => none) = ocount (fun _ => none)
        decide

theorem reachable_inv (s : GameState) (h : Reachable s) :
    (ocount s.board ≤ xcount s.board ∧ xcount s.board ≤ ocount s.board + 1)
    ∧ (s.isPlayerTurn = true → xcount s.board = ocount s.board ∨ emptySquares s.board = [])
    ∧ (s.isPlayerTurn = false → xcount s.board = ocount s.board + 1) := by
  have h' : Relation.ReflTransGen Step initialState s := h
  clear h
  induction h' with
  | refl =>
      exact ⟨⟨by decide, by decide⟩, fun _ => Or.inl (by decide),
        fun hc => absurd hc (by decide)⟩
  | tail hsteps hstep ih => exact step_inv _ _ hstep ih

/-- Claim C8: in every state reachable from the initial state by the event
loop's own operations, the number of `"X"` cells exceeds the number of `"O"`
cells by 0 or 1. -/
theorem C8_mark_count_invariant (s : GameState) (h : Reachable s) :
    ocount s.board ≤ xcount s.board ∧ xcount s.board ≤ ocount s.board + 1 :=
  (reachable_inv s h).1

/-- Witness for `C8_mark_count_invariant` at the initial state. -/
theorem C8_witness :
    ocount initialState.board ≤ xcount initialState.board
    ∧ xcount initialState.board ≤ ocount initialState.board + 1 :=
  C8_mark_count_invariant initialState Relation.ReflTransGen.refl

/-! ## Claim C10: the in-place search restores the array -/

theorem minimaxInPlace_terminal (fuel : Nat) (b : Board) (r : WinResult) (m : Bool)
    (h : checkWinner b = some r) :
    minimaxInPlace (fuel + 1) b m = (JsNum.int (scoreOf r), b) := by
  rw [minimaxInPlace, h]
  cases r with
  | mark mk => cases mk <;> rfl
  | tie => rfl

theorem minimaxInPlace_of_none (fuel : Nat) (b : Board) (m : Bool) (h : checkWinner b = none) :
    minimaxInPlace (fuel + 1) b m
      = (List.finRange 9).foldl (ipStep fuel m)
          ((if m then JsNum.negInf else JsNum.posInf), b) := by
  rw [minimaxInPlace, h]
  rfl

theorem minimaxInPlace_eq :
    ∀ (fuel : Nat) (b : Board) (m : Bool), emptyCount b < fuel →
      minimaxInPlace fuel b m = (minimaxFuel fuel b m, b) := by
  intro fuel
  induction fuel with
  | zero => intro b m h; exact absurd h (Nat.not_lt_zero _)
  | succ fuel ih =>
      intro b m h
      cases hcw : checkWinner b with
      | some r =>
          rw [minimaxInPlace_terminal fuel b r m hcw, minimaxFuel_terminal fuel b r m hcw]
      | none =>
          have hloop : ∀ (idxs : List (Fin 9)) (best : JsNum),
              idxs.foldl (ipStep fuel m) (best, b)
                = (idxs.foldl (mmStep fuel b m) best, b) := by
            intro idxs
            induction idxs with
            | nil => intro best; rfl
            | cons a rest ihl =>
                intro best
                rw [List.foldl_cons, List.foldl_cons]
                by_cases hba : b a = none
                · have hc := emptyCount_setCell b a (mmPlayer m) hba
                  have hchild := ih (setCell b a (some (mmPlayer m))) (!m) (by omega)
                  have hstep : ipStep fuel m (best, b) a
                      = (mmStep fuel b m best a, b) := by
                    simp only [ipStep, mmStep, hba, if_pos, hchild]
                    rw [setCell_setCell, setCell_eq_self b a none hba]
                  rw [hstep]
                  exact ihl _
                · have hstep : ipStep fuel m (best, b) a = (best, b) := by
                    simp [ipStep, hba]
                  rw [hstep, mmStep_of_occupied fuel b m best a hba]
                  exact ihl best
          rw [minimaxInPlace_of_none fuel b m hcw, minimaxFuel_of_none fuel b m hcw, hloop]

/-- Claim C10: although the JS `minimax` mutates its array in place while
searching (placing a mark, recursing, erasing it), the array holds exactly
its original contents when the call returns, for every board and flag, and
the computed score is the pure `minimax` score. -/
theorem C10_minimax_restores_board (b : Board) (isMaximizing : Bool) :
    minimaxInPlace 10 b isMaximizing = (minimax b isMaximizing, b) :=
  minimaxInPlace_eq 10 b isMaximizing (by have := emptyCount_le_nine b; omega)

end XO
